import Mathlib

/-!
Shallow embedding of the hotel room-service agent (`src/agent.py`,
`src/schemas.py`) and proofs about it.

Text is modelled as `List Char`.  Python's `str.lower`, `\s`, `\d` and `\b`
are modelled over their ASCII meaning (the spec explicitly accepts
locale-invariant ASCII folding).  Python dicts are modelled as
insertion-ordered association lists, which reproduces dict key order,
value overwriting and iteration order.
-/

/-- Text, modelled as a list of characters. -/
abbrev Str := List Char

/-- ASCII apostrophe, written by code point to keep source text plain. -/
def apos : Char := Char.ofNat 39

/-- Characters kept by `_normalize`: the class `[a-z0-9 ]`. -/
def isAllowedChar (c : Char) : Bool :=
  (('a' ≤ c && c ≤ 'z') || ('0' ≤ c && c ≤ '9') || c == ' ')

/-- `AgentClient._normalize`: lower-case, then strip every character outside
`[a-z0-9 ]` (`re.sub(r"[^a-z0-9 ]", "", s.lower())`, ASCII model). -/
def normalizeText (s : Str) : Str := (s.map Char.toLower).filter isAllowedChar

/-- Python's `pat in s` substring test for lists. -/
def containsSub (pat : Str) : Str → Bool
  | [] => pat.isEmpty
  | c :: rest => pat.isPrefixOf (c :: rest) || containsSub pat rest

/-- Structural worker for `replaceAll`; `fuel` bounds the number of steps
and is kept at least the length of the remaining text, so the `0` case is
only ever reached on the empty list. -/
def replaceAllAux (pat rep : Str) : Nat → Str → Str
  | _, [] => []
  | 0, s => s
  | fuel + 1, c :: rest =>
    if !pat.isEmpty && pat.isPrefixOf (c :: rest) then
      rep ++ replaceAllAux pat rep fuel ((c :: rest).drop pat.length)
    else
      c :: replaceAllAux pat rep fuel rest

/-- Python's `s.replace(pat, rep)`: replace every non-overlapping occurrence
of `pat`, scanning left to right.  The source only ever calls it with the
fixed non-empty synonym keys; an empty `pat` is mapped to the identity. -/
def replaceAll (pat rep s : Str) : Str := replaceAllAux pat rep s.length s

/-- Fuel is irrelevant as long as it covers the length of the text. -/
theorem replaceAllAux_fuel (pat rep : Str) :
    ∀ f f' s, s.length ≤ f → s.length ≤ f' →
      replaceAllAux pat rep f s = replaceAllAux pat rep f' s := by
  intro f
  induction f with
  | zero =>
    intro f' s hf _
    cases s with
    | nil => cases f' <;> rfl
    | cons c rest => simp at hf
  | succ n ih =>
    intro f' s hf hf'
    cases s with
    | nil => cases f' <;> rfl
    | cons c rest =>
      cases f' with
      | zero => simp at hf'
      | succ m =>
        simp only [replaceAllAux]
        by_cases h : (!pat.isEmpty && pat.isPrefixOf (c :: rest)) = true
        · simp only [h, if_pos]
          have hp : 1 ≤ pat.length := by
            cases pat with
            | nil => simp at h
            | cons a l => simp
          have hlen : ((c :: rest).drop pat.length).length ≤ n := by
            simp only [List.length_drop, List.length_cons]
            simp only [List.length_cons] at hf
            omega
          have hlen' : ((c :: rest).drop pat.length).length ≤ m := by
            simp only [List.length_drop, List.length_cons]
            simp only [List.length_cons] at hf'
            omega
          rw [ih _ _ hlen hlen']
        · simp only [h, if_neg, Bool.false_eq_true, not_false_iff]
          have hlen : rest.length ≤ n := by
            simp only [List.length_cons] at hf; omega
          have hlen' : rest.length ≤ m := by
            simp only [List.length_cons] at hf'; omega
          rw [ih _ _ hlen hlen']

/-- Unfolding `replaceAll` on `[]`. -/
theorem replaceAll_nil (pat rep : Str) : replaceAll pat rep [] = [] := rfl

/-- Unfolding `replaceAll` on a cons cell. -/
theorem replaceAll_cons (pat rep : Str) (c : Char) (rest : Str) :
    replaceAll pat rep (c :: rest) =
      if !pat.isEmpty && pat.isPrefixOf (c :: rest) then
        rep ++ replaceAll pat rep ((c :: rest).drop pat.length)
      else
        c :: replaceAll pat rep rest := by
  show replaceAllAux pat rep (rest.length + 1) (c :: rest) = _
  simp only [replaceAllAux]
  by_cases h : (!pat.isEmpty && pat.isPrefixOf (c :: rest)) = true
  · simp only [h, if_pos]
    have hp : 1 ≤ pat.length := by
      cases pat with
      | nil => simp at h
      | cons a l => simp
    have h1 : ((c :: rest).drop pat.length).length ≤ rest.length := by
      simp only [List.length_drop, List.length_cons]; omega
    rw [replaceAllAux_fuel pat rep rest.length ((c :: rest).drop pat.length).length
      ((c :: rest).drop pat.length) h1 (le_refl _)]
    rfl
  · simp only [h, if_neg, Bool.false_eq_true, not_false_iff]
    rfl

/-- The fixed synonym mapping of `AgentClient.__init__`, in insertion order. -/
def synonyms : List (Str × Str) :=
  [("fries".toList, "French Fries".toList),
   ("chips".toList, "French Fries".toList),
   ("lava cake".toList, "Chocolate Lava Cake".toList),
   ("chicken sandwich".toList, "Grilled Chicken Sandwich".toList),
   ("caesar salad".toList, "Veg Caesar Salad".toList),
   ("salad".toList, "Veg Caesar Salad".toList)]

/-- One synonym rewrite step: `if k in normalized: normalized =
normalized.replace(k, self._normalize(v))`. -/
def synStep (s : Str) (kv : Str × Str) : Str :=
  if containsSub kv.1 s then replaceAll kv.1 (normalizeText kv.2) s else s

/-- The synonym rewriting loop of `match_items`, applied in mapping order. -/
def applySynonyms (s : Str) : Str := synonyms.foldl synStep s

/-- A catalog entry (a raw menu dict).  `idAlt` models the `_id` key. -/
structure MenuItem where
  name : Str := []
  tags : List Str := []
  id : Option Str := none
  idAlt : Option Str := none
  available : Bool := true
  prep_time_min : Option Nat := none
deriving DecidableEq

/-- `OrderItem` dataclass of `agent.py`. -/
structure OrderItem where
  name : Str
  quantity : Nat := 1
  tags : List Str := []
  available : Bool := true
  prep_time_min : Option Nat := none
  menu_id : Option Str := none
deriving DecidableEq

/-- Python's `a or b` for an optional string `a`: `None` and `""` are falsy. -/
def falsyOr (a : Option Str) (b : Str) : Str :=
  match a with
  | some s => if s.isEmpty then b else s
  | none => b

/-- `id_ = item.get("id") or item.get("_id") or name`. -/
def menuKey (it : MenuItem) : Str := falsyOr it.id (falsyOr it.idAlt it.name)

/-- The `OrderItem` built for a matched catalog item. -/
def mkOrder (it : MenuItem) : OrderItem :=
  { name := it.name, quantity := 1, tags := it.tags, available := it.available,
    prep_time_min := it.prep_time_min, menu_id := some (menuKey it) }

/-- Python's `s.split()`: split on whitespace runs, dropping empty pieces. -/
def pySplit (s : Str) : List Str :=
  (List.splitOnP (fun c => c.isWhitespace) s).filter (fun t => !t.isEmpty)

/-- The token-match rule of `match_items`: some text token equals a token of
the normalized item name (`if tok and tok in self._normalize(name).split()`). -/
def tokenHit (normalized : Str) (it : MenuItem) : Bool :=
  (pySplit normalized).any (fun tok =>
    !tok.isEmpty && (pySplit (normalizeText it.name)).any (fun w => w == tok))

/-- The tag-match rule of `match_items`: some non-empty item tag is a
substring of the normalized text. -/
def tagHit (normalized : Str) (it : MenuItem) : Bool :=
  it.tags.any (fun tg => !tg.isEmpty && containsSub tg normalized)

/-- The raw matches appended by the catalog loop of `match_items`, before
deduplication.  Rule (a), whole normalized name contained, `continue`s; a
token hit `break`s its loop but still falls through to the tag loop, so a
single item can contribute twice. -/
def rawMatches (menu : List MenuItem) (normalized : Str) : List OrderItem :=
  menu.flatMap (fun it =>
    if containsSub (normalizeText it.name) normalized then [mkOrder it]
    else
      (if tokenHit normalized it then [mkOrder it] else []) ++
      (if tagHit normalized it then [mkOrder it] else []))

/-- Assignment `d[k] = v` on an insertion-ordered association list:
overwrite in place if the key exists, else append. -/
def storeSet {α β : Type} [DecidableEq α] : List (α × β) → α → β → List (α × β)
  | [], k, v => [(k, v)]
  | (k', v') :: rest, k, v =>
    if k' = k then (k, v) :: rest else (k', v') :: storeSet rest k v

/-- Lookup in an insertion-ordered association list. -/
def storeGet {α β : Type} [DecidableEq α] : List (α × β) → α → Option β
  | [], _ => none
  | (k', v') :: rest, k => if k' = k then some v' else storeGet rest k

/-- The dedupe key `o.menu_id or o.name`. -/
def orderKey (o : OrderItem) : Str := falsyOr o.menu_id o.name

/-- `uniq = {}; for o in found: uniq[key] = o; list(uniq.values())`. -/
def pyDictValues (l : List OrderItem) : List OrderItem :=
  (l.foldl (fun d o => storeSet d (orderKey o) o) []).map Prod.snd

/-- `AgentClient.match_items`. -/
def matchItems (menu : List MenuItem) (text : Str) : List OrderItem :=
  if menu.isEmpty then []
  else pyDictValues (rawMatches menu (applySynonyms (normalizeText text)))

/-- The catalog of the spec's Scenario 1. -/
def friesMenu : List MenuItem :=
  [{ name := "French Fries".toList, id := some "1".toList, tags := [],
     available := true, prep_time_min := some 10 }]

example : (matchItems friesMenu "fries".toList).map OrderItem.name
    = ["French Fries".toList] := by decide

/-- ASCII word characters, the class `\w` of Python's `re` (ASCII model). -/
def isWordChar (c : Char) : Bool :=
  (('a' ≤ c && c ≤ 'z') || ('A' ≤ c && c ≤ 'Z') || ('0' ≤ c && c ≤ '9') || c == '_')

/-- A `\b` boundary holds before a word character when the previous
character is absent or not a word character. -/
def boundaryBefore : Option Char → Bool
  | none => true
  | some c => !isWordChar c

/-- A `\b` boundary holds after the match when the rest is empty or starts
with a non-word character. -/
def boundaryAfter : Str → Bool
  | [] => true
  | c :: _ => !isWordChar c

/-- Scan for an occurrence of the literal `w` flanked by `\b` boundaries,
tracking the previous character. -/
def hasWordFrom (w : Str) : Option Char → Str → Bool
  | _, [] => false
  | prev, c :: rest =>
    (boundaryBefore prev && w.isPrefixOf (c :: rest) &&
      boundaryAfter ((c :: rest).drop w.length))
    || hasWordFrom w (some c) rest

/-- `re.search(r"\b(w1|w2|...)\b", t)` as a Boolean: some alternative
occurs with word boundaries.  Every alternative used in the source starts
and ends with a word character, so the boundary checks sit at its edges. -/
def hasWord (ws : List Str) (t : Str) : Bool := ws.any (fun w => hasWordFrom w none t)

/-- Greeting alternatives of `parse`. -/
def greetWords : List Str :=
  ["hi".toList, "hello".toList, "hey".toList, "good morning".toList,
   "good evening".toList]

/-- Cancellation alternatives of `parse` (`don't` built with an explicit
apostrophe character). -/
def cancelWords : List Str :=
  ["cancel".toList, "never mind".toList, "stop".toList,
   "don".toList ++ [apos] ++ "t".toList]

/-- Short affirmations; `re.fullmatch` with flanking `\b` on these
word-character alternatives is exactly string equality. -/
def confirmWords : List Str :=
  ["yes".toList, "yep".toList, "confirm".toList, "please".toList,
   "sure".toList, "ok".toList]

/-- Order-verb alternatives of `parse`. -/
def orderVerbWords : List Str :=
  ["order".toList, "i want".toList, "i".toList ++ [apos] ++ "d like".toList,
   "get me".toList, "bring me".toList, "please get".toList, "i need".toList]

/-- `text.strip()` over ASCII whitespace. -/
def pyStrip (s : Str) : Str :=
  ((s.dropWhile (fun c => c.isWhitespace)).reverse.dropWhile
    (fun c => c.isWhitespace)).reverse

/-- `text.lower()` (ASCII model). -/
def pyLower (s : Str) : Str := s.map Char.toLower

/-- The preference triggers of `parse`. -/
def prefTrigger (t : Str) : Bool :=
  containsSub "vegetarian".toList t || containsSub "vegan".toList t ||
  containsSub "no onion".toList t || containsSub "no dairy".toList t ||
  containsSub "dairy-free".toList t || containsSub "nut allergy".toList t

/-- The dietary tag list built by the `set_preference` rule; each trigger
is tested independently. -/
def dietaryOf (t : Str) : List Str :=
  (if containsSub "vegetarian".toList t || containsSub "vegan".toList t then
    ["vegetarian".toList] else []) ++
  (if containsSub "no onion".toList t then ["no_onion".toList] else []) ++
  (if containsSub "no dairy".toList t || containsSub "dairy-free".toList t then
    ["no_dairy".toList] else []) ++
  (if containsSub "nut".toList t then ["no_nuts".toList] else [])

/-- Length of the leading whitespace run (`\s*`, ASCII model). -/
def wsRun (s : Str) : Nat := (s.takeWhile (fun c => c.isWhitespace)).length

/-- Greedy `.+` at the current position: the maximal run of non-newline
characters, required non-empty. -/
def dotPlus (s : Str) : Option Str :=
  let r := s.takeWhile (fun c => c != '\n')
  if r.isEmpty then none else some r

/-- Greedy-with-backtracking `\s*` followed by `(.+)`. -/
def qtyTail (r2 : Str) : Option Str :=
  (((List.range (wsRun r2 + 1)).reverse).map (fun j => r2.drop j)).findSome? dotPlus

/-- The part of the quantity pattern after the digits:
`\s*(?:x|pcs|pieces)?\s*(.+)`, with the regex backtracking order
(whitespace greedy, alternatives left to right, `?` greedy). -/
def qtyRest (rest : Str) : Option Str :=
  (((List.range (wsRun rest + 1)).reverse).map (fun i => rest.drop i)).findSome?
    (fun r1 =>
      (["x".toList, "pcs".toList, "pieces".toList, ([] : Str)]).findSome?
        (fun o => if o.isPrefixOf r1 then qtyTail (r1.drop o.length) else none))

/-- Decimal value of a digit string (`int(...)`). -/
def strToNat (s : Str) : Nat := s.foldl (fun a c => a * 10 + (c.toNat - 48)) 0

/-- A quantity-pattern match attempt anchored at the current position:
greedy `(\d+)` with backtracking over its length, then `qtyRest`. -/
def qtyHere (s : Str) : Option (Nat × Str) :=
  let ds := s.takeWhile (fun c => c.isDigit)
  if ds.isEmpty then none
  else
    ((List.range ds.length).map (fun k => ds.length - k)).findSome?
      (fun n => (qtyRest (s.drop n)).map (fun item => (strToNat (s.take n), item)))

/-- `re.search(r"(\d+)\s*(?:x|pcs|pieces)?\s*(.+)", t)`: leftmost match
position, scanning the suffixes in order. -/
def qtySearch : Str → Option (Nat × Str)
  | [] => none
  | c :: rest =>
    match qtyHere (c :: rest) with
    | some r => some r
    | none => qtySearch rest

/-- The intent labels produced by `parse`. -/
inductive Intent
  | greeting
  | cancel
  | confirm
  | set_preference
  | order_food
  | clarify
  | unknown
deriving DecidableEq

/-- The dict returned by `parse`. -/
structure Parsed where
  intent : Intent
  items : List OrderItem := []
  dietary : List Str := []
deriving DecidableEq

/-- Rule 6 of the cascade: order verb or short utterance; the matcher runs
on the original `text`, not the lowered `t`. -/
def parseOrderRule (menu : List MenuItem) (text t : Str) : Parsed :=
  if hasWord orderVerbWords t || (pySplit t).length ≤ 3 then
    if !(matchItems menu text).isEmpty then
      { intent := .order_food, items := matchItems menu text, dietary := [] }
    else
      { intent := .clarify, items := [], dietary := [] }
  else
    { intent := .unknown, items := [], dietary := [] }

/-- `AgentClient.parse`: the ordered rule cascade. -/
def parse (menu : List MenuItem) (text : Str) : Parsed :=
  let t := pyLower (pyStrip text)
  if hasWord greetWords t then { intent := .greeting, items := [], dietary := [] }
  else if hasWord cancelWords t then { intent := .cancel, items := [], dietary := [] }
  else if confirmWords.any (fun w => w == t) then
    { intent := .confirm, items := [], dietary := [] }
  else if prefTrigger t then
    { intent := .set_preference, items := [], dietary := dietaryOf t }
  else
    match qtySearch t with
    | some (qty, itemText) =>
      if !(matchItems menu itemText).isEmpty then
        { intent := .order_food,
          items := (matchItems menu itemText).map (fun m => { m with quantity := qty }),
          dietary := [] }
      else parseOrderRule menu text t
    | none => parseOrderRule menu text t

example : (parse friesMenu "2 x fries".toList).intent = .order_food := by decide
example : (parse friesMenu "2 x fries".toList).items.map OrderItem.quantity = [2] := by decide
example : (parse friesMenu "hello".toList).intent = .greeting := by decide
example : (parse friesMenu "yes".toList).intent = .confirm := by decide
example : (parse friesMenu "i am vegetarian".toList).dietary = ["vegetarian".toList] := by decide
example : (parse friesMenu "xyzzy".toList).intent = .clarify := by decide

/-- A pending order: the dicts `{"items": ...}` and
`{"items": ..., "eta_min": eta}` stored under `ctx["pending"]`. -/
structure Pending where
  items : List OrderItem
  eta_min : Option Nat := none
deriving DecidableEq

/-- A session context, created empty on first reference. -/
structure SessionCtx where
  preferences : List Str := []
  pending : Option Pending := none
  history : List Pending := []
deriving DecidableEq

/-- The in-memory session store `self.sessions`, an insertion-ordered
mapping from session id to context. -/
abbrev SessionStore := List (Str × SessionCtx)

/-- `ChatRequest` of `schemas.py` (`guest_id` is carried but never read). -/
structure ChatRequest where
  session_id : Option Str := none
  guest_id : Option Str := none
  message : Str
deriving DecidableEq

/-- The shapes taken by the free-form `context` mapping of a response. -/
inductive RespContext
  | preferences (ps : List Str)
  | history (h : List Pending)
  | conflicts (cs : List OrderItem)
  | unavailable (us : List OrderItem)
  | pending (p : Pending)
deriving DecidableEq

/-- `ChatResponse` of `schemas.py`. -/
structure ChatResponse where
  session_id : Option Str := none
  reply : Str
  intent : Option Str := none
  suggested_actions : Option (List Str) := none
  context : Option RespContext := none
deriving DecidableEq

/-- The synthesized guest id `f"guest-{int(time.time())}"`; the current
time is passed in as a parameter of the embedding. -/
def guestId (now : Nat) : Str := "guest-".toList ++ (Nat.repr now).toList

/-- The effective session key: a falsy (`None` or empty) id is replaced by
a fresh guest id. -/
def sessionKey (now : Nat) (sid? : Option Str) : Str :=
  match sid? with
  | none => guestId now
  | some s => if s.isEmpty then guestId now else s

/-- `AgentClient._load_session`: a missing session is created empty in the
store. -/
def loadSession (now : Nat) (store : SessionStore) (sid? : Option Str) :
    Str × SessionCtx × SessionStore :=
  let sid := sessionKey now sid?
  match storeGet store sid with
  | some ctx => (sid, ctx, store)
  | none => (sid, {}, storeSet store sid {})

/-- `ctx["preferences"][p] = True`: an idempotent, order-preserving insert
of a key that is only ever mapped to `True`. -/
def insertPref (prefs : List Str) (d : Str) : List Str :=
  if d ∈ prefs then prefs else prefs ++ [d]

/-- The forbidden tag set of the vegetarian conflict check. -/
def forbiddenTags : List Str :=
  ["non-veg".toList, "chicken".toList, "beef".toList, "pork".toList,
   "fish".toList, "egg".toList]

/-- The `vegetarian` preference key. -/
def vegTag : Str := "vegetarian".toList

/-- The conflict collection loop of the `order_food` branch. -/
def conflictsOf (prefs : List Str) (items : List OrderItem) : List OrderItem :=
  items.filter (fun o =>
    decide (vegTag ∈ prefs) && o.tags.any (fun tg => forbiddenTags.any (fun f => f == tg)))

/-- The unavailable-item collection loop of the `order_food` branch. -/
def unavailableOf (items : List OrderItem) : List OrderItem :=
  items.filter (fun o => !o.available)

/-- Decimal rendering of a number, as interpolated by the f-strings. -/
def natStr (n : Nat) : Str := (Nat.repr n).toList

/-- `", ".join(...)`. -/
def joinComma (l : List Str) : Str := List.intercalate ", ".toList l

/-- `", ".join(f"{i.quantity} x {i.name}" for i in items)`. -/
def itemNamesStr (items : List OrderItem) : Str :=
  joinComma (items.map (fun i => natStr i.quantity ++ " x ".toList ++ i.name))

/-- Python `repr` of a list of strings, used by the preference reply. -/
def pyStrListRepr (l : List Str) : Str :=
  "[".toList ++ joinComma (l.map (fun s => [apos] ++ s ++ [apos])) ++ "]".toList

/-- Reply of the empty-items clarify branch. -/
def couldNotFindReply : Str :=
  "I couldn".toList ++ [apos] ++ "t find that item. Can you name it differently?".toList

/-- Reply of the clarify/unknown branch. -/
def didNotUnderstandReply : Str :=
  "I didn".toList ++ [apos] ++ "t understand — can you specify the dish name (e.g., ".toList
    ++ [apos] ++ "Grilled Chicken Sandwich".toList ++ [apos] ++ ")?".toList

/-- `AgentClient.run`: the dialogue state machine.  The current time is a
parameter; the store is threaded explicitly (every in-place mutation in the
source is immediately followed by `_save_session`, so value passing with an
explicit save is equivalent to the aliased dict). -/
def run (menu : List MenuItem) (now : Nat) (store : SessionStore)
    (req : ChatRequest) : ChatResponse × SessionStore :=
  let text := req.message
  let L := loadSession now store req.session_id
  let sid := L.1
  let ctx := L.2.1
  let store1 := L.2.2
  let parsed := parse menu text
  if parsed.intent = .greeting then
    ({ session_id := some sid,
       reply := "Hello! How can I help with room service today?".toList,
       intent := some "greeting".toList }, store1)
  else if parsed.intent = .set_preference then
    let ctx' := { ctx with preferences := parsed.dietary.foldl insertPref ctx.preferences }
    ({ session_id := some sid,
       reply := "Saved preferences: ".toList ++ pyStrListRepr parsed.dietary,
       intent := some "set_preference".toList,
       context := some (.preferences ctx'.preferences) }, storeSet store1 sid ctx')
  else if parsed.intent = .cancel then
    let ctx' := { ctx with pending := none }
    ({ session_id := some sid,
       reply := "Cancelled your pending request.".toList,
       intent := some "cancel".toList }, storeSet store1 sid ctx')
  else if parsed.intent = .confirm then
    match ctx.pending with
    | some order =>
      let ctx' := { ctx with pending := none, history := ctx.history ++ [order] }
      ({ session_id := some sid,
         reply := "Order placed. Thank you!".toList,
         intent := some "confirm".toList,
         context := some (.history ctx'.history) }, storeSet store1 sid ctx')
    | none =>
      ({ session_id := some sid,
         reply := "Nothing to confirm.".toList,
         intent := some "confirm".toList }, store1)
  else if parsed.intent = .order_food then
    let items := parsed.items
    if items.isEmpty then
      ({ session_id := some sid,
         reply := couldNotFindReply,
         intent := some "clarify".toList,
         suggested_actions := some ["provide_item_name".toList] }, store1)
    else
      let conflicts := conflictsOf ctx.preferences items
      let unavailable := unavailableOf items
      if !conflicts.isEmpty then
        let ctx' := { ctx with pending := some { items := items } }
        ({ session_id := some sid,
           reply := "These items conflict with your dietary preferences: ".toList
             ++ joinComma (conflicts.map OrderItem.name) ++ ". Replace or remove?".toList,
           intent := some "confirm".toList,
           suggested_actions := some ["replace_item".toList, "remove_item".toList],
           context := some (.conflicts conflicts) }, storeSet store1 sid ctx')
      else if !unavailable.isEmpty then
        let ctx' := { ctx with pending := some { items := items } }
        ({ session_id := some sid,
           reply := "Sorry, these are currently unavailable: ".toList
             ++ joinComma (unavailable.map OrderItem.name)
             ++ ". Would you like alternatives?".toList,
           intent := some "clarify".toList,
           suggested_actions := some ["offer_alternatives".toList],
           context := some (.unavailable unavailable) }, storeSet store1 sid ctx')
      else
        let eta := (items.map (fun o => o.prep_time_min.getD 0)).sum
        let pend : Pending := { items := items, eta_min := some eta }
        let ctx' := { ctx with pending := some pend }
        ({ session_id := some sid,
           reply := "Confirming: ".toList ++ itemNamesStr items ++ ". ETA ~".toList
             ++ natStr eta ++ " minutes. Shall I place the order?".toList,
           intent := some "confirm_request".toList,
           suggested_actions := some ["confirm".toList, "modify".toList, "cancel".toList],
           context := some (.pending pend) }, storeSet store1 sid ctx')
  else if parsed.intent = .clarify ∨ parsed.intent = .unknown then
    ({ session_id := some sid,
       reply := didNotUnderstandReply,
       intent := some "clarify".toList,
       suggested_actions := some ["provide_item_name".toList] }, store1)
  else
    ({ session_id := some sid,
       reply := "Sorry, I couldn".toList ++ [apos] ++ "t process that.".toList,
       intent := some "error".toList }, store1)

/-- Sequential processing of several timed requests against the store. -/
def runMany (menu : List MenuItem) (store : SessionStore)
    (reqs : List (Nat × ChatRequest)) : SessionStore :=
  reqs.foldl (fun st nr => (run menu nr.1 st nr.2).2) store

example :
    (run friesMenu 0 [] { session_id := some "s".toList,
                          message := "2 x fries".toList }).1.intent
      = some "confirm_request".toList := by decide

example :
    containsSub "ETA ~10 minutes".toList
      (run friesMenu 0 [] { session_id := some "s".toList,
                            message := "2 x fries".toList }).1.reply = true := by decide

/-- `containsSub` decides list-infix containment. -/
theorem containsSub_iff (pat : Str) :
    ∀ s, containsSub pat s = true ↔ pat <:+: s := by
  intro s
  induction s with
  | nil =>
    simp only [containsSub, List.isEmpty_iff, List.infix_nil]
  | cons c rest ih =>
    simp only [containsSub, Bool.or_eq_true, List.isPrefixOf_iff_prefix, ih,
      List.infix_cons_iff]

/-- If `pat` occurs in `s`, the replacement string occurs in the output of
`replaceAll` (the first occurrence is rewritten to `rep`). -/
theorem replaceAll_infix_rep (pat rep : Str) (hp : pat ≠ []) :
    ∀ n s, s.length ≤ n → pat <:+: s → rep <:+: replaceAll pat rep s := by
  intro n
  induction n with
  | zero =>
    intro s hs h
    cases s with
    | nil => exact absurd (List.infix_nil.mp h) hp
    | cons c rest => simp at hs
  | succ n ih =>
    intro s hs h
    cases s with
    | nil => exact absurd (List.infix_nil.mp h) hp
    | cons c rest =>
      rw [replaceAll_cons]
      by_cases hpre : pat <+: (c :: rest)
      · have hcond : (!pat.isEmpty && pat.isPrefixOf (c :: rest)) = true := by
          simp only [Bool.and_eq_true, Bool.not_eq_true']
          refine ⟨by simpa [List.isEmpty_iff] using hp, ?_⟩
          exact List.isPrefixOf_iff_prefix.mpr hpre
        rw [if_pos hcond]
        exact (List.prefix_append rep _).isInfix
      · have hcond : (!pat.isEmpty && pat.isPrefixOf (c :: rest)) = false := by
          have : pat.isPrefixOf (c :: rest) = false :=
            Bool.eq_false_iff.mpr (fun hc => hpre (List.isPrefixOf_iff_prefix.mp hc))
          simp [this]
        rw [hcond]
        simp only [Bool.false_eq_true, if_false]
        rcases List.infix_cons_iff.mp h with h1 | h2
        · exact absurd h1 hpre
        · have hlen : rest.length ≤ n := by
            simp only [List.length_cons] at hs; omega
          exact (ih rest hlen h2).trans (List.infix_cons List.infix_rfl)

/-- `containsSub` framing of `replaceAll_infix_rep`. -/
theorem containsSub_rep_replaceAll (pat rep s : Str) (hp : pat ≠ [])
    (h : containsSub pat s = true) :
    containsSub rep (replaceAll pat rep s) = true := by
  rw [containsSub_iff]
  exact replaceAll_infix_rep pat rep hp s.length s (le_refl _) ((containsSub_iff pat s).mp h)

/-- A synonym fold over keys that do not occur leaves the text unchanged. -/
theorem foldl_synStep_noop :
    ∀ (L : List (Str × Str)) (s : Str),
      (∀ p ∈ L, containsSub p.1 s = false) → L.foldl synStep s = s := by
  intro L
  induction L with
  | nil => intro s _; rfl
  | cons p L ih =>
    intro s h
    have hp : containsSub p.1 s = false := h p (List.mem_cons_self p L)
    have : synStep s p = s := by
      unfold synStep
      rw [hp]
      simp
    rw [List.foldl_cons, this]
    exact ih s (fun q hq => h q (List.mem_cons_of_mem p hq))

/-- `storeGet` after `storeSet` at the same key. -/
theorem storeGet_storeSet_self {α β : Type} [DecidableEq α]
    (k : α) (v : β) : ∀ d, storeGet (storeSet d k v) k = some v := by
  intro d
  induction d with
  | nil => simp [storeSet, storeGet]
  | cons kv rest ih =>
    obtain ⟨k', v'⟩ := kv
    by_cases h : k' = k
    · subst h; simp [storeSet, storeGet]
    · simp only [storeSet, if_neg h, storeGet]
      exact ih

/-- `storeGet` after `storeSet` at a different key. -/
theorem storeGet_storeSet_other {α β : Type} [DecidableEq α]
    (k k' : α) (v : β) (hne : k ≠ k') :
    ∀ d, storeGet (storeSet d k v) k' = storeGet d k' := by
  intro d
  induction d with
  | nil => simp [storeSet, storeGet, hne]
  | cons kv rest ih =>
    obtain ⟨k₀, v₀⟩ := kv
    by_cases h : k₀ = k
    · subst h; simp [storeSet, storeGet, hne]
    · simp only [storeSet, if_neg h, storeGet]
      by_cases h' : k₀ = k'
      · simp [h']
      · rw [if_neg h', if_neg h']
        exact ih

/-- A value found by `storeGet` is among the stored values. -/
theorem storeGet_mem {α β : Type} [DecidableEq α] (k : α) (v : β) :
    ∀ d, storeGet d k = some v → (k, v) ∈ d := by
  intro d
  induction d with
  | nil => intro h; simp [storeGet] at h
  | cons kv rest ih =>
    obtain ⟨k₀, v₀⟩ := kv
    intro h
    simp only [storeGet] at h
    by_cases hk : k₀ = k
    · rw [if_pos hk] at h
      subst hk
      cases h
      exact List.mem_cons_self _ _
    · rw [if_neg hk] at h
      exact List.mem_cons_of_mem _ (ih h)

/-- With duplicate-free keys, membership determines `storeGet`. -/
theorem storeGet_of_mem {α β : Type} [DecidableEq α] (k : α) (v : β) :
    ∀ d : List (α × β), (d.map Prod.fst).Nodup → (k, v) ∈ d → storeGet d k = some v := by
  intro d
  induction d with
  | nil => intro _ h; simp at h
  | cons kv rest ih =>
    obtain ⟨k₀, v₀⟩ := kv
    intro hnd hmem
    simp only [List.map_cons, List.nodup_cons] at hnd
    rcases List.mem_cons.mp hmem with heq | htail
    · cases heq
      simp [storeGet]
    · have hk : k₀ ≠ k := by
        intro h
        subst h
        exact hnd.1 (List.mem_map_of_mem Prod.fst htail)
      simp only [storeGet, if_neg hk]
      exact ih hnd.2 htail

/-- Key insertion order of a Python dict: re-assigning keeps the position,
a fresh key goes to the back. -/
def insertKey {α : Type} [DecidableEq α] (ks : List α) (k : α) : List α :=
  if k ∈ ks then ks else ks ++ [k]

/-- The dict-building fold underlying the dedupe of `match_items`. -/
def dictFold {α β : Type} [DecidableEq α] (f : β → α) (l : List β)
    (d : List (α × β)) : List (α × β) :=
  l.foldl (fun d o => storeSet d (f o) o) d

/-- `pyDictValues` through `dictFold`. -/
theorem pyDictValues_eq (l : List OrderItem) :
    pyDictValues l = (dictFold orderKey l []).map Prod.snd := rfl

/-- `storeSet` inserts the key in dict key order. -/
theorem map_fst_storeSet {α β : Type} [DecidableEq α] (k : α) (v : β) :
    ∀ d : List (α × β), (storeSet d k v).map Prod.fst = insertKey (d.map Prod.fst) k := by
  intro d
  induction d with
  | nil => simp [storeSet, insertKey]
  | cons kv rest ih =>
    obtain ⟨k₀, v₀⟩ := kv
    by_cases h : k₀ = k
    · subst h
      simp [storeSet, insertKey]
    · have hne : ¬k = k₀ := fun hh => h hh.symm
      simp only [storeSet, if_neg h, List.map_cons, ih, insertKey, List.mem_cons]
      by_cases hm : k ∈ rest.map Prod.fst
      · simp [hm, hne]
      · simp [hm, hne]

/-- `insertKey` preserves freedom from duplicates. -/
theorem insertKey_nodup {α : Type} [DecidableEq α] (ks : List α) (k : α)
    (h : ks.Nodup) : (insertKey ks k).Nodup := by
  unfold insertKey
  by_cases hm : k ∈ ks
  · simpa [hm] using h
  · simpa [hm] using List.Nodup.append h (List.nodup_singleton k)
      (List.disjoint_singleton.mpr hm)

/-- Dict keys after the fold stay duplicate-free. -/
theorem dictFold_keys_nodup {α β : Type} [DecidableEq α] (f : β → α) :
    ∀ (l : List β) (d : List (α × β)), (d.map Prod.fst).Nodup →
      ((dictFold f l d).map Prod.fst).Nodup := by
  intro l
  induction l with
  | nil => intro d h; exact h
  | cons o l ih =>
    intro d h
    have : dictFold f (o :: l) d = dictFold f l (storeSet d (f o) o) := rfl
    rw [this]
    exact ih _ (by rw [map_fst_storeSet]; exact insertKey_nodup _ _ h)

/-- Every entry of `storeSet d k v` is the new pair or an old entry. -/
theorem mem_storeSet {α β : Type} [DecidableEq α] (k : α) (v : β) :
    ∀ (d : List (α × β)) kv, kv ∈ storeSet d k v → kv = (k, v) ∨ kv ∈ d := by
  intro d
  induction d with
  | nil => intro kv h; simpa [storeSet] using h
  | cons kv₀ rest ih =>
    obtain ⟨k₀, v₀⟩ := kv₀
    intro kv h
    by_cases hk : k₀ = k
    · subst hk
      rw [storeSet, if_pos rfl] at h
      rcases List.mem_cons.mp h with h' | h'
      · exact Or.inl h'
      · exact Or.inr (List.mem_cons_of_mem _ h')
    · rw [storeSet, if_neg hk] at h
      rcases List.mem_cons.mp h with h' | h'
      · exact Or.inr (by simp [h'])
      · rcases ih kv h' with h2 | h2
        · exact Or.inl h2
        · exact Or.inr (List.mem_cons_of_mem _ h2)

/-- Every entry of the fold keys its value by `f`. -/
theorem dictFold_key_eq {α β : Type} [DecidableEq α] (f : β → α) :
    ∀ (l : List β) (d : List (α × β)),
      (∀ kv ∈ d, kv.1 = f kv.2) → ∀ kv ∈ dictFold f l d, kv.1 = f kv.2 := by
  intro l
  induction l with
  | nil => intro d h kv hm; exact h kv hm
  | cons o l ih =>
    intro d h kv hm
    refine ih (storeSet d (f o) o) ?_ kv hm
    intro kv' hm'
    rcases mem_storeSet (f o) o d kv' hm' with h' | h'
    · rw [h']
    · exact h kv' h'

/-- If no element of `l` carries key `k`, the fold leaves `k`'s binding. -/
theorem dictFold_get_of_filter_nil {α β : Type} [DecidableEq α] (f : β → α) (k : α) :
    ∀ (l : List β) (d : List (α × β)),
      l.filter (fun o => decide (f o = k)) = [] →
      storeGet (dictFold f l d) k = storeGet d k := by
  intro l
  induction l with
  | nil => intro d _; rfl
  | cons o l ih =>
    intro d hf
    rw [List.filter_cons] at hf
    by_cases hfo : f o = k
    · simp [hfo] at hf
    · simp only [hfo, decide_False, Bool.false_eq_true, if_false] at hf
      have : dictFold f (o :: l) d = dictFold f l (storeSet d (f o) o) := rfl
      rw [this, ih _ hf, storeGet_storeSet_other (f o) k o hfo]

/-- The binding a key receives from the fold is the last element of `l`
with that key. -/
theorem dictFold_get_of_getLast {α β : Type} [DecidableEq α] (f : β → α) (k : α) :
    ∀ (l : List β) (d : List (α × β)) (o : β),
      (l.filter (fun o => decide (f o = k))).getLast? = some o →
      storeGet (dictFold f l d) k = some o := by
  intro l
  induction l with
  | nil => intro d o h; simp at h
  | cons o₀ l ih =>
    intro d o h
    rw [List.filter_cons] at h
    have hstep : dictFold f (o₀ :: l) d = dictFold f l (storeSet d (f o₀) o₀) := rfl
    by_cases hfo : f o₀ = k
    · simp only [hfo, decide_True, if_pos] at h
      cases hl : l.filter (fun o => decide (f o = k)) with
      | nil =>
        rw [hl] at h
        simp only [List.getLast?_singleton, Option.some_inj] at h
        subst h
        rw [hstep, dictFold_get_of_filter_nil f k l _ hl, ← hfo,
          storeGet_storeSet_self]
      | cons b l' =>
        rw [hl, List.getLast?_cons_cons] at h
        rw [hstep]
        exact ih _ o (by rw [hl]; exact h)
    · simp only [hfo, decide_False, Bool.false_eq_true, if_false] at h
      rw [hstep]
      exact ih _ o h

/-- Dict key order after the fold, in terms of `insertKey`. -/
theorem dictFold_keys {α β : Type} [DecidableEq α] (f : β → α) :
    ∀ (l : List β) (d : List (α × β)),
      (dictFold f l d).map Prod.fst = (l.map f).foldl insertKey (d.map Prod.fst) := by
  intro l
  induction l with
  | nil => intro d; rfl
  | cons o l ih =>
    intro d
    have hstep : dictFold f (o :: l) d = dictFold f l (storeSet d (f o) o) := rfl
    rw [hstep, ih, map_fst_storeSet]
    rfl

/-- When every entry keys its value by `f`, mapping `f` over the values
recovers the keys. -/
theorem map_snd_keys {α β : Type} (f : β → α) :
    ∀ d : List (α × β), (∀ kv ∈ d, kv.1 = f kv.2) →
      (d.map Prod.snd).map f = d.map Prod.fst := by
  intro d h
  rw [List.map_map]
  exact List.map_congr_left (fun kv hkv => (h kv hkv).symm)

/-- The last element of a list whose elements are all `a` is `a`. -/
theorem getLast?_of_all_eq {α : Type} (a : α) :
    ∀ l : List α, l ≠ [] → (∀ x ∈ l, x = a) → l.getLast? = some a := by
  intro l
  induction l with
  | nil => intro h _; exact absurd rfl h
  | cons b l ih =>
    intro _ hall
    cases l with
    | nil => simp [hall b (List.mem_cons_self b [])]
    | cons c l' =>
      rw [List.getLast?_cons_cons]
      exact ih (by simp) (fun x hx => hall x (List.mem_cons_of_mem b hx))

/-- The deduplicated value list never repeats a dedupe key. -/
theorem pyDictValues_key_nodup (l : List OrderItem) :
    ((pyDictValues l).map orderKey).Nodup := by
  rw [pyDictValues_eq, map_snd_keys orderKey _
    (dictFold_key_eq orderKey l [] (by intro kv h; simp at h))]
  exact dictFold_keys_nodup orderKey l [] (by simp)

/-- Each surviving value is the last raw element carrying its key. -/
theorem pyDictValues_getLast (l : List OrderItem) (o : OrderItem)
    (h : o ∈ pyDictValues l) :
    (l.filter (fun r => decide (orderKey r = orderKey o))).getLast? = some o := by
  rw [pyDictValues_eq] at h
  obtain ⟨kv, hkv, hsnd⟩ := List.mem_map.mp h
  have hkey : kv.1 = orderKey kv.2 :=
    dictFold_key_eq orderKey l [] (by intro kv h; simp at h) kv hkv
  have hmem : (orderKey o, o) ∈ dictFold orderKey l [] := by
    have : kv = (orderKey o, o) := by
      obtain ⟨k₁, v₁⟩ := kv
      simp only at hsnd hkey
      rw [hsnd] at hkey ⊢
      rw [hkey]
    rwa [this] at hkv
  have hget : storeGet (dictFold orderKey l []) (orderKey o) = some o :=
    storeGet_of_mem _ _ _ (dictFold_keys_nodup orderKey l [] (by simp)) hmem
  cases hfil : l.filter (fun r => decide (orderKey r = orderKey o)) with
  | nil =>
    have := dictFold_get_of_filter_nil orderKey (orderKey o) l [] hfil
    rw [this] at hget
    simp [storeGet] at hget
  | cons b l' =>
    have hne : (b :: l') ≠ ([] : List OrderItem) := by simp
    have hlast := List.getLast?_eq_getLast (b :: l') hne
    have := dictFold_get_of_getLast orderKey (orderKey o) l []
      ((b :: l').getLast hne) (by rw [hfil]; exact hlast)
    rw [this] at hget
    rw [hlast]
    exact congrArg some (Option.some_inj.mp hget)

/-- Result key order is the first-occurrence order of the raw keys. -/
theorem pyDictValues_keys (l : List OrderItem) :
    (pyDictValues l).map orderKey = (l.map orderKey).foldl insertKey [] := by
  rw [pyDictValues_eq, map_snd_keys orderKey _
    (dictFold_key_eq orderKey l [] (by intro kv h; simp at h))]
  exact dictFold_keys orderKey l []

/-- Every raw element is represented in the deduplicated values by some
element with the same key. -/
theorem pyDictValues_mem_of_mem (l : List OrderItem) (o : OrderItem)
    (h : o ∈ l) : ∃ o', o' ∈ pyDictValues l ∧ orderKey o' = orderKey o := by
  have hfil : o ∈ l.filter (fun r => decide (orderKey r = orderKey o)) :=
    List.mem_filter.mpr ⟨h, by simp⟩
  have hne : l.filter (fun r => decide (orderKey r = orderKey o)) ≠ [] :=
    List.ne_nil_of_mem hfil
  have hlast := List.getLast?_eq_getLast _ hne
  set a := (l.filter (fun r => decide (orderKey r = orderKey o))).getLast hne with ha
  have hget : storeGet (dictFold orderKey l []) (orderKey o) = some a :=
    dictFold_get_of_getLast orderKey (orderKey o) l [] a hlast
  have hmem : (orderKey o, a) ∈ dictFold orderKey l [] := storeGet_mem _ _ _ hget
  refine ⟨a, ?_, ?_⟩
  · rw [pyDictValues_eq]
    exact List.mem_map.mpr ⟨(orderKey o, a), hmem, rfl⟩
  · have := dictFold_key_eq orderKey l [] (by intro kv h; simp at h)
      (orderKey o, a) hmem
    simp only at this
    exact this.symm

/-- `falsyOr` on `none`. -/
theorem falsyOr_none (b : Str) : falsyOr none b = b := rfl

/-- `falsyOr` on `some`. -/
theorem falsyOr_some (s b : Str) : falsyOr (some s) b = if s.isEmpty then b else s := rfl

/-- An empty catalog key forces an empty item name. -/
theorem menuKey_nil_name (it : MenuItem) (h : menuKey it = []) : it.name = [] := by
  unfold menuKey at h
  rcases hid : it.id with _ | s <;> rw [hid] at h
  · rw [falsyOr_none] at h
    rcases halt : it.idAlt with _ | s' <;> rw [halt] at h
    · rwa [falsyOr_none] at h
    · rw [falsyOr_some] at h
      cases s' with
      | nil => simpa using h
      | cons a l => simp at h
  · rw [falsyOr_some] at h
    cases s with
    | nil =>
      simp only [List.isEmpty_nil, if_true] at h
      rcases halt : it.idAlt with _ | s' <;> rw [halt] at h
      · rwa [falsyOr_none] at h
      · rw [falsyOr_some] at h
        cases s' with
        | nil => simpa using h
        | cons a l => simp at h
    | cons a l => simp at h

/-- The dedupe key of a matched item is its catalog key. -/
theorem orderKey_mkOrder (it : MenuItem) : orderKey (mkOrder it) = menuKey it := by
  show falsyOr (some (menuKey it)) it.name = menuKey it
  rw [falsyOr_some]
  by_cases h : (menuKey it).isEmpty = true
  · rw [if_pos h, menuKey_nil_name it (List.isEmpty_iff.mp h),
      List.isEmpty_iff.mp h]
  · rw [if_neg h]

/-- Every raw match is `mkOrder` of some catalog item. -/
theorem mem_rawMatches (menu : List MenuItem) (normalized : Str) (r : OrderItem)
    (h : r ∈ rawMatches menu normalized) : ∃ it ∈ menu, r = mkOrder it := by
  unfold rawMatches at h
  obtain ⟨it, hit, hr⟩ := List.mem_flatMap.mp h
  refine ⟨it, hit, ?_⟩
  by_cases h1 : containsSub (normalizeText it.name) normalized = true
  · rw [if_pos h1] at hr
    simpa using hr
  · rw [if_neg h1] at hr
    rcases List.mem_append.mp hr with h2 | h2
    · by_cases ht : tokenHit normalized it = true
      · rw [if_pos ht] at h2; simpa using h2
      · rw [if_neg ht] at h2; simp at h2
    · by_cases ht : tagHit normalized it = true
      · rw [if_pos ht] at h2; simpa using h2
      · rw [if_neg ht] at h2; simp at h2

/-- Each synonym key is non-empty and its canonical phrase has a non-empty
normalization. -/
theorem synonyms_key_ne_nil (k v : Str) (h : (k, v) ∈ synonyms) :
    k ≠ [] ∧ normalizeText v ≠ [] := by
  unfold synonyms at h
  simp only [List.mem_cons, List.not_mem_nil, or_false, Prod.mk.injEq] at h
  rcases h with ⟨rfl, rfl⟩ | ⟨rfl, rfl⟩ | ⟨rfl, rfl⟩ | ⟨rfl, rfl⟩ | ⟨rfl, rfl⟩ | ⟨rfl, rfl⟩ <;>
    exact ⟨by decide, by decide⟩

/-- The two-items-one-id catalog of the C5 counterexample. -/
def teaChaiMenu : List MenuItem :=
  [{ name := "tea".toList, id := some "1".toList },
   { name := "chai".toList, id := some "1".toList }]

/-- The single-item catalog of the C6 counterexample. -/
def gcsMenu : List MenuItem :=
  [{ name := "Grilled Chicken Sandwich".toList, id := some "2".toList }]

/-- A catalog item whose name normalizes to the empty string (C9). -/
def bangMenu : List MenuItem := [{ name := "!!!".toList }]

/-- C4: the spec invariant `quantity ≥ 1` fails on the quantified-order
rule: the message `0 fries` against the Scenario 1 catalog parses to
`order_food` with an `OrderItem` of quantity `0`. -/
theorem c4_zero_quantity_order :
    (parse friesMenu "0 fries".toList).intent = .order_food ∧
    (parse friesMenu "0 fries".toList).items.map OrderItem.quantity = [0] := by
  constructor <;> decide

/-- C5 counterexample: two catalog items share id `1` and both match; the
kept `OrderItem` is the last-seen match (`chai`), not the first-seen
(`tea`), refuting the first-seen-kept reading. -/
theorem c5_counterexample :
    rawMatches teaChaiMenu (applySynonyms (normalizeText "tea chai".toList)) =
      [mkOrder { name := "tea".toList, id := some "1".toList },
       mkOrder { name := "chai".toList, id := some "1".toList }] ∧
    orderKey (mkOrder { name := "tea".toList, id := some "1".toList }) =
      orderKey (mkOrder { name := "chai".toList, id := some "1".toList }) ∧
    matchItems teaChaiMenu "tea chai".toList =
      [mkOrder { name := "chai".toList, id := some "1".toList }] ∧
    mkOrder { name := "tea".toList, id := some "1".toList } ≠
      mkOrder { name := "chai".toList, id := some "1".toList } := by
  refine ⟨by decide, by decide, by decide, by decide⟩

/-- C5 (amended): `matchItems` never returns two `OrderItem`s with the same
dedupe key; when several raw matches share one key, the last-seen raw match
is the value kept, placed at the first occurrence of its key, and the
result key order is the first-occurrence order of the raw matches (which
follow catalog iteration order). -/
theorem c5_dedupe_semantics (menu : List MenuItem) (text : Str) :
    ((matchItems menu text).map orderKey).Nodup ∧
    (∀ o ∈ matchItems menu text,
      ((rawMatches menu (applySynonyms (normalizeText text))).filter
        (fun r => decide (orderKey r = orderKey o))).getLast? = some o) ∧
    (matchItems menu text).map orderKey =
      ((rawMatches menu (applySynonyms (normalizeText text))).map orderKey).foldl
        insertKey [] := by
  by_cases hm : menu.isEmpty = true
  · have hnil : menu = [] := List.isEmpty_iff.mp hm
    subst hnil
    refine ⟨?_, ?_, ?_⟩ <;> simp [matchItems, rawMatches]
  · have hmatch : matchItems menu text =
        pyDictValues (rawMatches menu (applySynonyms (normalizeText text))) := by
      unfold matchItems
      rw [if_neg hm]
    refine ⟨?_, ?_, ?_⟩
    · rw [hmatch]; exact pyDictValues_key_nodup _
    · intro o ho
      rw [hmatch] at ho
      exact pyDictValues_getLast _ o ho
    · rw [hmatch]; exact pyDictValues_keys _

/-- C5 witness: the amended dedupe semantics at the counterexample input,
with the kept element computed concretely. -/
theorem c5_dedupe_semantics_witness :
    ((matchItems teaChaiMenu "tea chai".toList).map orderKey).Nodup ∧
    ((rawMatches teaChaiMenu (applySynonyms (normalizeText "tea chai".toList))).filter
      (fun r => decide (orderKey r =
        orderKey (mkOrder { name := "chai".toList, id := some "1".toList })))).getLast?
      = some (mkOrder { name := "chai".toList, id := some "1".toList }) :=
  ⟨(c5_dedupe_semantics teaChaiMenu "tea chai".toList).1,
   (c5_dedupe_semantics teaChaiMenu "tea chai".toList).2.1
     (mkOrder { name := "chai".toList, id := some "1".toList }) (by decide)⟩

/-- C9 counterexample: with a non-empty catalog containing an item whose
name normalizes to the empty string, the empty text yields a non-empty
match list (the empty normalized name is a substring of the empty text). -/
theorem c9_counterexample : matchItems bangMenu [] ≠ [] := by decide

/-- C9 (amended): the empty catalog always yields the empty result, and the
empty text yields the empty result provided no catalog item has a name
normalizing to the empty string. -/
theorem c9_empty_inputs :
    (∀ text : Str, matchItems [] text = []) ∧
    (∀ menu : List MenuItem, (∀ it ∈ menu, normalizeText it.name ≠ []) →
      matchItems menu [] = []) := by
  constructor
  · intro text; rfl
  · intro menu hname
    by_cases hm : menu.isEmpty = true
    · unfold matchItems
      rw [if_pos hm]
    · unfold matchItems
      rw [if_neg hm]
      have hsyn : applySynonyms (normalizeText []) = [] := by decide
      rw [hsyn]
      have hraw : rawMatches menu [] = [] := by
        unfold rawMatches
        rw [List.flatMap_eq_nil_iff]
        intro it hit
        have h1 : containsSub (normalizeText it.name) [] = false := by
          unfold containsSub
          exact Bool.eq_false_iff.mpr
            (fun hc => hname it hit (List.isEmpty_iff.mp hc))
        have h2 : tokenHit [] it = false := by
          unfold tokenHit
          rw [show pySplit ([] : Str) = [] from by decide]
          rfl
        have h3 : tagHit [] it = false := by
          unfold tagHit
          rw [List.any_eq_false]
          intro tg _
          rw [show containsSub tg [] = tg.isEmpty from rfl]
          cases tg.isEmpty <;> simp
        rw [if_neg (by rw [h1]; exact Bool.false_ne_true), h2, h3]
        simp
      rw [hraw]
      rfl

/-- C6 counterexample: the text `xchicken sandwichips` contains the synonym
key `chicken sandwich` and the catalog holds the canonical item, yet the
earlier key `chips` overlaps the occurrence, its replacement rewrites the
tail, and the canonical item is not matched at all. -/
theorem c6_counterexample :
    ("chicken sandwich".toList, "Grilled Chicken Sandwich".toList) ∈ synonyms ∧
    containsSub "chicken sandwich".toList
      (normalizeText "xchicken sandwichips".toList) = true ∧
    gcsMenu.map MenuItem.name = ["Grilled Chicken Sandwich".toList] ∧
    matchItems gcsMenu "xchicken sandwichips".toList = [] := by
  refine ⟨by decide, by decide, by decide, by decide⟩

/-- C6 (amended): synonym expansion is monotone for a key `k` provided the
other keys do not fire on this input — keys before `k` are absent from the
normalized text and keys after `k` are absent from the text after `k`'s
replacement — and the canonical item's catalog key is unshared.  Then
`matchItems` includes an `OrderItem` for the canonical item. -/
theorem c6_synonym_monotone (L1 L2 : List (Str × Str)) (k v : Str)
    (menu : List MenuItem) (text : Str) (it : MenuItem)
    (hsyn : synonyms = L1 ++ (k, v) :: L2)
    (hk : containsSub k (normalizeText text) = true)
    (hL1 : ∀ p ∈ L1, containsSub p.1 (normalizeText text) = false)
    (hL2 : ∀ p ∈ L2, containsSub p.1
      (replaceAll k (normalizeText v) (normalizeText text)) = false)
    (hit : it ∈ menu)
    (hname : normalizeText it.name = normalizeText v)
    (huniq : ∀ it' ∈ menu, menuKey it' = menuKey it → it' = it) :
    ∃ o ∈ matchItems menu text, o.name = it.name ∧ o.menu_id = some (menuKey it) := by
  have hmem : (k, v) ∈ synonyms := by
    rw [hsyn]
    exact List.mem_append_right _ (List.mem_cons_self _ _)
  obtain ⟨hkne, hvne⟩ := synonyms_key_ne_nil k v hmem
  have happly : applySynonyms (normalizeText text) =
      replaceAll k (normalizeText v) (normalizeText text) := by
    unfold applySynonyms
    rw [hsyn, List.foldl_append, foldl_synStep_noop L1 _ hL1, List.foldl_cons,
      show synStep (normalizeText text) (k, v) =
        replaceAll k (normalizeText v) (normalizeText text) from by
          unfold synStep; rw [if_pos hk]]
    exact foldl_synStep_noop L2 _ hL2
  have hcontains : containsSub (normalizeText it.name)
      (replaceAll k (normalizeText v) (normalizeText text)) = true := by
    rw [hname]
    exact containsSub_rep_replaceAll k (normalizeText v) _ hkne hk
  have hmenu_ne : ¬menu.isEmpty = true := by
    simp only [List.isEmpty_iff]
    exact List.ne_nil_of_mem hit
  have hmatch : matchItems menu text =
      pyDictValues (rawMatches menu
        (replaceAll k (normalizeText v) (normalizeText text))) := by
    unfold matchItems
    rw [if_neg hmenu_ne, happly]
  have hraw : mkOrder it ∈ rawMatches menu
      (replaceAll k (normalizeText v) (normalizeText text)) := by
    unfold rawMatches
    refine List.mem_flatMap.mpr ⟨it, hit, ?_⟩
    rw [if_pos hcontains]
    exact List.mem_singleton.mpr rfl
  obtain ⟨o', ho', hkey⟩ := pyDictValues_mem_of_mem _ _ hraw
  have hlast := pyDictValues_getLast _ o' ho'
  have ho'raw : o' ∈ rawMatches menu
      (replaceAll k (normalizeText v) (normalizeText text)) :=
    (List.mem_filter.mp (List.mem_of_getLast?_eq_some hlast)).1
  obtain ⟨it', hit', ho'eq⟩ := mem_rawMatches _ _ o' ho'raw
  have hit'eq : it' = it := by
    refine huniq it' hit' ?_
    have h1 : orderKey o' = menuKey it' := by rw [ho'eq, orderKey_mkOrder]
    have h2 : orderKey o' = menuKey it := by rw [hkey, orderKey_mkOrder]
    rw [← h1, h2]
  refine ⟨o', ?_, ?_, ?_⟩
  · rw [hmatch]; exact ho'
  · rw [ho'eq, hit'eq]; rfl
  · rw [ho'eq, hit'eq]; rfl

/-- C6 witness: the amended theorem instantiated at the key `fries`, the
text `some fries` and the Scenario 1 catalog. -/
theorem c6_synonym_monotone_witness :
    ∃ o ∈ matchItems friesMenu "some fries".toList,
      o.name = "French Fries".toList ∧ o.menu_id = some ("1".toList) := by
  obtain ⟨o, ho, h1, h2⟩ := c6_synonym_monotone []
    [("chips".toList, "French Fries".toList),
     ("lava cake".toList, "Chocolate Lava Cake".toList),
     ("chicken sandwich".toList, "Grilled Chicken Sandwich".toList),
     ("caesar salad".toList, "Veg Caesar Salad".toList),
     ("salad".toList, "Veg Caesar Salad".toList)]
    "fries".toList "French Fries".toList friesMenu "some fries".toList
    { name := "French Fries".toList, id := some "1".toList, tags := [],
      available := true, prep_time_min := some 10 }
    (by decide) (by decide) (by intro p hp; simp at hp) (by decide)
    (by decide) (by decide) (by decide)
  exact ⟨o, ho, h1, h2.trans (by decide)⟩

/-- The id returned by `loadSession` is the effective session key. -/
theorem loadSession_fst (now : Nat) (store : SessionStore) (sid? : Option Str) :
    (loadSession now store sid?).1 = sessionKey now sid? := by
  cases hg : storeGet store (sessionKey now sid?) <;> simp [loadSession, hg]

/-- After `loadSession`, the store holds the loaded context at the key. -/
theorem loadSession_self_get (now : Nat) (store : SessionStore) (sid? : Option Str) :
    storeGet (loadSession now store sid?).2.2 (sessionKey now sid?) =
      some (loadSession now store sid?).2.1 := by
  cases hg : storeGet store (sessionKey now sid?) with
  | some ctx => simp [loadSession, hg]
  | none => simp [loadSession, hg, storeGet_storeSet_self]

/-- `loadSession` never disturbs an existing binding. -/
theorem loadSession_get_mono (now : Nat) (store : SessionStore) (sid? : Option Str)
    (sid : Str) (ctx : SessionCtx) (h : storeGet store sid = some ctx) :
    storeGet (loadSession now store sid?).2.2 sid = some ctx := by
  cases hg : storeGet store (sessionKey now sid?) with
  | some ctx' => simpa [loadSession, hg] using h
  | none =>
    by_cases he : sessionKey now sid? = sid
    · rw [he] at hg; rw [hg] at h; cases h
    · simp only [loadSession, hg]
      simpa [storeGet_storeSet_other _ _ _ he] using h

/-- When the session already exists, `loadSession` returns it and leaves
the store alone. -/
theorem loadSession_of_get (now : Nat) (store : SessionStore) (sid? : Option Str)
    (ctx : SessionCtx) (h : storeGet store (sessionKey now sid?) = some ctx) :
    loadSession now store sid? = (sessionKey now sid?, ctx, store) := by
  simp [loadSession, h]

/-- The guest id, and hence every effective session key, is non-empty. -/
theorem sessionKey_ne_nil (now : Nat) (sid? : Option Str) :
    sessionKey now sid? ≠ [] := by
  unfold sessionKey
  cases sid? with
  | none => simp [guestId]
  | some s =>
    show (if s.isEmpty = true then guestId now else s) ≠ []
    by_cases hs : s.isEmpty = true
    · rw [if_pos hs]; simp [guestId]
    · rw [if_neg hs]
      exact fun h => hs (by simp [h])

/-- Preferences already present survive the merge loop. -/
theorem mem_foldl_insertPref (ds : List Str) :
    ∀ ps d, d ∈ ps → d ∈ ds.foldl insertPref ps := by
  induction ds with
  | nil => intro ps d hd; exact hd
  | cons e ds ih =>
    intro ps d hd
    refine ih (insertPref ps e) d ?_
    unfold insertPref
    by_cases he : e ∈ ps
    · rwa [if_pos he]
    · rw [if_neg he]
      exact List.mem_append_left _ hd

/-- Every merged tag is present after the merge loop. -/
theorem mem_foldl_insertPref_self (ds : List Str) :
    ∀ ps d, d ∈ ds → d ∈ ds.foldl insertPref ps := by
  induction ds with
  | nil => intro ps d hd; simp at hd
  | cons e ds ih =>
    intro ps d hd
    rcases List.mem_cons.mp hd with rfl | hd'
    · refine mem_foldl_insertPref ds (insertPref ps d) d ?_
      unfold insertPref
      by_cases he : d ∈ ps
      · rwa [if_pos he]
      · rw [if_neg he]
        exact List.mem_append_right _ (List.mem_singleton.mpr rfl)
    · exact ih (insertPref ps e) d hd'

/-- Merging tags that are all present is a no-op (idempotence of
`set_preference`). -/
theorem foldl_insertPref_noop (ds : List Str) :
    ∀ ps, (∀ d ∈ ds, d ∈ ps) → ds.foldl insertPref ps = ps := by
  induction ds with
  | nil => intro ps _; rfl
  | cons e ds ih =>
    intro ps h
    rw [List.foldl_cons,
      show insertPref ps e = ps from if_pos (h e (List.mem_cons_self e ds))]
    exact ih ps (fun d hd => h d (List.mem_cons_of_mem e hd))

/-- Saving an updated context whose preferences contain the old ones keeps
any stored preference visible, for every session id. -/
theorem store_after_save (now : Nat) (store : SessionStore) (sid? : Option Str)
    (sid : Str) (ctx : SessionCtx) (d : Str) (ctxR : SessionCtx)
    (h : storeGet store sid = some ctx) (hd : d ∈ ctx.preferences)
    (hpres : (loadSession now store sid?).2.1.preferences = ctxR.preferences ∨
      ∃ ds : List Str, ctxR.preferences =
        ds.foldl insertPref (loadSession now store sid?).2.1.preferences) :
    ∃ ctx', storeGet (storeSet (loadSession now store sid?).2.2
        (loadSession now store sid?).1 ctxR) sid = some ctx' ∧
      d ∈ ctx'.preferences := by
  by_cases hk : (loadSession now store sid?).1 = sid
  · have hsk : sessionKey now sid? = sid := by
      rw [← loadSession_fst now store sid?]; exact hk
    have hload := loadSession_of_get now store sid? ctx (by rw [hsk]; exact h)
    have hctx0 : (loadSession now store sid?).2.1 = ctx := by rw [hload]
    refine ⟨ctxR, ?_, ?_⟩
    · rw [hk, storeGet_storeSet_self]
    · rcases hpres with hp | ⟨ds, hp⟩
      · rw [← hp, hctx0]; exact hd
      · rw [hp, hctx0]; exact mem_foldl_insertPref ds _ d hd
  · refine ⟨ctx, ?_, hd⟩
    rw [storeGet_storeSet_other _ _ _ hk, loadSession_get_mono now store sid? sid ctx h]

set_option maxHeartbeats 2000000 in
/-- A single turn of any intent keeps every stored preference visible. -/
theorem run_pref_mono (menu : List MenuItem) (now : Nat) (store : SessionStore)
    (req : ChatRequest) (sid : Str) (ctx : SessionCtx) (d : Str)
    (h : storeGet store sid = some ctx) (hd : d ∈ ctx.preferences) :
    ∃ ctx', storeGet (run menu now store req).2 sid = some ctx' ∧
      d ∈ ctx'.preferences := by
  have base : ∃ ctx', storeGet (loadSession now store req.session_id).2.2 sid =
      some ctx' ∧ d ∈ ctx'.preferences :=
    ⟨ctx, loadSession_get_mono now store req.session_id sid ctx h, hd⟩
  rcases hI : (parse menu req.message).intent <;>
    simp only [run, hI, reduceCtorEq, if_false, if_true, Bool.false_eq_true,
      eq_self_iff_true, or_self, or_true, or_false]
  case greeting => exact base
  case cancel =>
    exact store_after_save now store req.session_id sid ctx d _ h hd (Or.inl rfl)
  case confirm =>
    rcases hpend : (loadSession now store req.session_id).2.1.pending with _ | p <;>
      simp only [hpend]
    · exact base
    · exact store_after_save now store req.session_id sid ctx d _ h hd (Or.inl rfl)
  case set_preference =>
    exact store_after_save now store req.session_id sid ctx d _ h hd
      (Or.inr ⟨(parse menu req.message).dietary, rfl⟩)
  case order_food =>
    repeat' split
    all_goals
      first
      | exact base
      | exact store_after_save now store req.session_id sid ctx d _ h hd (Or.inl rfl)
  case clarify => exact base
  case unknown => exact base

set_option maxHeartbeats 2000000 in
/-- Every response carries the loaded session id. -/
theorem run_session_id (menu : List MenuItem) (now : Nat) (store : SessionStore)
    (req : ChatRequest) :
    (run menu now store req).1.session_id =
      some (loadSession now store req.session_id).1 := by
  rcases hI : (parse menu req.message).intent <;>
    (simp only [run, hI, reduceCtorEq, if_false, if_true, Bool.false_eq_true,
      eq_self_iff_true, or_self, or_true, or_false]
     repeat' split
     all_goals rfl)

set_option maxHeartbeats 2000000 in
/-- After any turn, the store has a context under the loaded session id. -/
theorem run_store_has_key (menu : List MenuItem) (now : Nat) (store : SessionStore)
    (req : ChatRequest) :
    ∃ ctx', storeGet (run menu now store req).2
      (loadSession now store req.session_id).1 = some ctx' := by
  have base : ∃ ctx', storeGet (loadSession now store req.session_id).2.2
      (loadSession now store req.session_id).1 = some ctx' := by
    rw [loadSession_fst]
    exact ⟨_, loadSession_self_get now store req.session_id⟩
  rcases hI : (parse menu req.message).intent <;>
    (simp only [run, hI, reduceCtorEq, if_false, if_true, Bool.false_eq_true,
      eq_self_iff_true, or_self, or_true, or_false]
     repeat' split
     all_goals first
       | exact base
       | exact ⟨_, storeGet_storeSet_self _ _ _⟩)

/-- The Scenario 2 catalog: the canonical chicken item, tagged `chicken`
and currently unavailable. -/
def chickenMenu : List MenuItem :=
  [{ name := "Grilled Chicken Sandwich".toList, tags := ["chicken".toList],
     id := some "2".toList, available := false, prep_time_min := some 12 }]

/-- A store holding one session with a vegetarian preference. -/
def vegStore : SessionStore :=
  [("s".toList, { preferences := ["vegetarian".toList] })]

/-- The Scenario 1 request. -/
def friesReq : ChatRequest :=
  { session_id := some "s".toList, message := "2 x fries".toList }

/-- The Scenario 2 request. -/
def chickenReq : ChatRequest :=
  { session_id := some "s".toList, message := "chicken sandwich".toList }

/-- A store holding one session with a pending order. -/
def pendStore : SessionStore :=
  [("s".toList, { pending := some { items := [], eta_min := some 5 } })]

/-- A confirm request against the stored session. -/
def yesReq : ChatRequest :=
  { session_id := some "s".toList, message := "yes".toList }

/-- A confirm request against a fresh session. -/
def yesReqFresh : ChatRequest :=
  { session_id := some "t".toList, message := "yes".toList }

set_option maxHeartbeats 2000000 in
/-- C1: an `order_food` turn without dietary conflicts and with every
matched item available sets `pending = {items, eta_min}` where `eta_min`
sums `prep_time_min` over the items (missing counted as 0, not multiplied
by quantity), and replies with intent `confirm_request` and suggested
actions `confirm`, `modify`, `cancel`. -/
theorem c1_confirm_request (menu : List MenuItem) (now : Nat)
    (store : SessionStore) (req : ChatRequest)
    (hintent : (parse menu req.message).intent = .order_food)
    (hne : (parse menu req.message).items ≠ [])
    (hconf : conflictsOf (loadSession now store req.session_id).2.1.preferences
      (parse menu req.message).items = [])
    (havail : ∀ o ∈ (parse menu req.message).items, o.available = true) :
    (run menu now store req).1.intent = some "confirm_request".toList ∧
    (run menu now store req).1.suggested_actions =
      some ["confirm".toList, "modify".toList, "cancel".toList] ∧
    (run menu now store req).1.context = some (.pending
      { items := (parse menu req.message).items,
        eta_min := some (((parse menu req.message).items.map
          (fun o => o.prep_time_min.getD 0)).sum) }) ∧
    storeGet (run menu now store req).2 (loadSession now store req.session_id).1 =
      some { (loadSession now store req.session_id).2.1 with
        pending := some
          { items := (parse menu req.message).items,
            eta_min := some (((parse menu req.message).items.map
              (fun o => o.prep_time_min.getD 0)).sum) } } := by
  have hne' : (parse menu req.message).items.isEmpty = false := by
    rw [List.isEmpty_eq_false]; exact hne
  have hunavail : unavailableOf (parse menu req.message).items = [] := by
    unfold unavailableOf
    rw [List.filter_eq_nil_iff]
    intro o ho
    simp [havail o ho]
  simp only [run, hintent, hne', hconf, hunavail, reduceCtorEq, if_false,
    Bool.false_eq_true, List.isEmpty_nil, Bool.not_true, Bool.not_false, if_true]
  refine ⟨by first | rfl | trivial, by first | rfl | trivial,
    by first | rfl | trivial, ?_⟩
  rw [storeGet_storeSet_self]

/-- C1 witness: Scenario 1 — catalog with `French Fries` (prep 10), input
`2 x fries`: one item of quantity 2, ETA 10 and not 20, suggested actions
`confirm`, `modify`, `cancel`. -/
theorem c1_confirm_request_witness :
    (parse friesMenu "2 x fries".toList).items.map OrderItem.quantity = [2] ∧
    (run friesMenu 0 [] friesReq).1.intent = some "confirm_request".toList ∧
    (run friesMenu 0 [] friesReq).1.suggested_actions =
      some ["confirm".toList, "modify".toList, "cancel".toList] ∧
    containsSub "ETA ~10 minutes".toList (run friesMenu 0 [] friesReq).1.reply
      = true ∧
    containsSub "ETA ~20".toList (run friesMenu 0 [] friesReq).1.reply = false := by
  have h := c1_confirm_request friesMenu 0 [] friesReq
    (by decide) (by decide) (by decide) (by decide)
  exact ⟨by decide, h.1, h.2.1, by decide, by decide⟩

set_option maxHeartbeats 2000000 in
/-- C2: on an `order_food` turn with items, when `vegetarian` is a stored
preference and some matched item carries a forbidden tag, the conflict
branch wins regardless of availability: pending holds all requested items
unfiltered (no eta), the reply has intent `confirm` with actions
`replace_item`, `remove_item`, and the context carries the conflicts. -/
theorem c2_conflict_priority (menu : List MenuItem) (now : Nat)
    (store : SessionStore) (req : ChatRequest)
    (hintent : (parse menu req.message).intent = .order_food)
    (hne : (parse menu req.message).items ≠ [])
    (hveg : vegTag ∈ (loadSession now store req.session_id).2.1.preferences)
    (hbad : ∃ o ∈ (parse menu req.message).items, ∃ tg ∈ o.tags, tg ∈ forbiddenTags) :
    (run menu now store req).1.intent = some "confirm".toList ∧
    (run menu now store req).1.suggested_actions =
      some ["replace_item".toList, "remove_item".toList] ∧
    (run menu now store req).1.context = some (.conflicts
      (conflictsOf (loadSession now store req.session_id).2.1.preferences
        (parse menu req.message).items)) ∧
    storeGet (run menu now store req).2 (loadSession now store req.session_id).1 =
      some { (loadSession now store req.session_id).2.1 with
        pending := some
          { items := (parse menu req.message).items, eta_min := none } } := by
  have hne' : (parse menu req.message).items.isEmpty = false := by
    rw [List.isEmpty_eq_false]; exact hne
  obtain ⟨o, ho, tg, htg, hf⟩ := hbad
  have hmemc : o ∈ conflictsOf
      (loadSession now store req.session_id).2.1.preferences
      (parse menu req.message).items := by
    unfold conflictsOf
    refine List.mem_filter.mpr ⟨ho, ?_⟩
    rw [Bool.and_eq_true]
    exact ⟨decide_eq_true hveg,
      List.any_eq_true.mpr ⟨tg, htg, List.any_eq_true.mpr ⟨tg, hf, by simp⟩⟩⟩
  have hcne : (conflictsOf (loadSession now store req.session_id).2.1.preferences
      (parse menu req.message).items).isEmpty = false := by
    rw [List.isEmpty_eq_false]
    exact List.ne_nil_of_mem hmemc
  simp only [run, hintent, hne', hcne, reduceCtorEq, if_false,
    Bool.false_eq_true, Bool.not_true, Bool.not_false, if_true]
  refine ⟨by first | rfl | trivial, by first | rfl | trivial,
    by first | rfl | trivial, ?_⟩
  rw [storeGet_storeSet_self]

/-- C2 witness: Scenario 2 — vegetarian preference stored, the candidate
item tagged `chicken` and also unavailable; the conflict branch still wins. -/
theorem c2_conflict_priority_witness :
    (parse chickenMenu "chicken sandwich".toList).items.map OrderItem.available
      = [false] ∧
    (run chickenMenu 5 vegStore chickenReq).1.intent = some "confirm".toList ∧
    (run chickenMenu 5 vegStore chickenReq).1.suggested_actions =
      some ["replace_item".toList, "remove_item".toList] := by
  have h := c2_conflict_priority chickenMenu 5 vegStore chickenReq
    (by decide) (by decide) (by decide)
    ⟨(parse chickenMenu "chicken sandwich".toList).items.head (by decide),
      by decide, "chicken".toList, by decide, by decide⟩
  exact ⟨by decide, h.1, h.2.1⟩

set_option maxHeartbeats 2000000 in
/-- C3: a `confirm` turn appends to history exactly when a pending order
exists: with a pending order, that one order is appended, pending is
cleared and the reply announces placement; with no pending order, the
reply says there is nothing to confirm and the session context (and the
store) is left unchanged. -/
theorem c3_confirm_pending (menu : List MenuItem) (now : Nat)
    (store : SessionStore) (req : ChatRequest)
    (hintent : (parse menu req.message).intent = .confirm) :
    ((loadSession now store req.session_id).2.1.pending = none →
      (run menu now store req).1.reply = "Nothing to confirm.".toList ∧
      (run menu now store req).2 = (loadSession now store req.session_id).2.2 ∧
      storeGet (run menu now store req).2 (loadSession now store req.session_id).1 =
        some (loadSession now store req.session_id).2.1) ∧
    (∀ p, (loadSession now store req.session_id).2.1.pending = some p →
      (run menu now store req).1.reply = "Order placed. Thank you!".toList ∧
      storeGet (run menu now store req).2 (loadSession now store req.session_id).1 =
        some { (loadSession now store req.session_id).2.1 with
          pending := none,
          history := (loadSession now store req.session_id).2.1.history ++ [p] }) := by
  constructor
  · intro hpend
    simp only [run, hintent, hpend, reduceCtorEq, if_false, Bool.false_eq_true,
      if_true]
    refine ⟨by first | rfl | trivial, by first | rfl | trivial, ?_⟩
    rw [loadSession_fst]
    exact loadSession_self_get now store req.session_id
  · intro p hpend
    simp only [run, hintent, hpend, reduceCtorEq, if_false, Bool.false_eq_true,
      if_true]
    refine ⟨by first | rfl | trivial, ?_⟩
    rw [storeGet_storeSet_self]

/-- C3 witness: message `yes` against a session with a pending order and
against a fresh session. -/
theorem c3_confirm_pending_witness :
    (run [] 3 pendStore yesReq).1.reply = "Order placed. Thank you!".toList ∧
    storeGet (run [] 3 pendStore yesReq).2 "s".toList =
      some { preferences := [], pending := none,
             history := [{ items := [], eta_min := some 5 }] } ∧
    (run [] 3 [] yesReqFresh).1.reply = "Nothing to confirm.".toList := by
  have h1 := (c3_confirm_pending [] 3 pendStore yesReq (by decide)).2
    { items := [], eta_min := some 5 } (by decide)
  have h2 := (c3_confirm_pending [] 3 [] yesReqFresh (by decide)).1 (by decide)
  refine ⟨h1.1, ?_, h2.1⟩
  have h3 := h1.2
  rw [show (loadSession 3 pendStore yesReq.session_id).1 = "s".toList from
    by decide] at h3
  rw [h3]
  decide

/-- A preference-setting request. -/
def vegReq : ChatRequest :=
  { session_id := some "s".toList, message := "i am vegetarian".toList }

/-- A cancel request for the same session. -/
def cancelReq : ChatRequest :=
  { session_id := some "s".toList, message := "cancel".toList }

/-- A request that provides an empty session id (falsy in the source). -/
def emptySidReq : ChatRequest :=
  { session_id := some [], message := "hello".toList }

/-- A request with a non-empty session id. -/
def abcReq : ChatRequest :=
  { session_id := some "abc".toList, message := "hello".toList }

set_option maxHeartbeats 2000000 in
/-- C7: preferences are monotone and idempotent: a stored preference
survives every later turn of any intent; a `set_preference` turn makes
each parsed dietary tag visible in the stored preferences; and re-running
the same `set_preference` request leaves the preference mapping unchanged. -/
theorem c7_preferences_persist :
    (∀ (menu : List MenuItem) (store : SessionStore)
        (reqs : List (Nat × ChatRequest)) (sid : Str) (ctx : SessionCtx) (d : Str),
      storeGet store sid = some ctx → d ∈ ctx.preferences →
      ∃ ctx', storeGet (runMany menu store reqs) sid = some ctx' ∧
        d ∈ ctx'.preferences) ∧
    (∀ (menu : List MenuItem) (now : Nat) (store : SessionStore)
        (req : ChatRequest) (d : Str),
      (parse menu req.message).intent = .set_preference →
      d ∈ (parse menu req.message).dietary →
      ∃ ctx', storeGet (run menu now store req).2
          (loadSession now store req.session_id).1 = some ctx' ∧
        d ∈ ctx'.preferences) ∧
    (∀ (menu : List MenuItem) (now : Nat) (store : SessionStore)
        (req : ChatRequest),
      (parse menu req.message).intent = .set_preference →
      (storeGet (run menu now (run menu now store req).2 req).2
          (loadSession now store req.session_id).1).map SessionCtx.preferences =
      (storeGet (run menu now store req).2
          (loadSession now store req.session_id).1).map SessionCtx.preferences) := by
  refine ⟨?_, ?_, ?_⟩
  · intro menu store reqs
    induction reqs generalizing store with
    | nil => intro sid ctx d h hd; exact ⟨ctx, h, hd⟩
    | cons nr reqs ih =>
      intro sid ctx d h hd
      obtain ⟨ctx1, h1, hd1⟩ := run_pref_mono menu nr.1 store nr.2 sid ctx d h hd
      exact ih _ sid ctx1 d h1 hd1
  · intro menu now store req d hintent hd
    simp only [run, hintent, reduceCtorEq, if_false, Bool.false_eq_true, if_true]
    exact ⟨_, storeGet_storeSet_self _ _ _,
      mem_foldl_insertPref_self _ _ d hd⟩
  · intro menu now store req hintent
    have hstep : ∀ st : SessionStore, (run menu now st req).2 =
        storeSet (loadSession now st req.session_id).2.2
          (loadSession now st req.session_id).1
          { (loadSession now st req.session_id).2.1 with
            preferences := (parse menu req.message).dietary.foldl insertPref
              (loadSession now st req.session_id).2.1.preferences } := by
      intro st
      simp only [run, hintent, reduceCtorEq, if_false, Bool.false_eq_true, if_true]
    have hkey : storeGet (run menu now store req).2
        (sessionKey now req.session_id) = some
          { (loadSession now store req.session_id).2.1 with
            preferences := (parse menu req.message).dietary.foldl insertPref
              (loadSession now store req.session_id).2.1.preferences } := by
      rw [hstep store, ← loadSession_fst now store req.session_id]
      exact storeGet_storeSet_self _ _ _
    have hload2 := loadSession_of_get now (run menu now store req).2
      req.session_id _ hkey
    rw [hstep (run menu now store req).2, hload2, loadSession_fst]
    simp only []
    rw [storeGet_storeSet_self, hkey,
      foldl_insertPref_noop _ _ (fun d hd => mem_foldl_insertPref_self _ _ d hd)]

/-- C7 witness: setting `vegetarian`, then cancelling on a later turn,
keeps the preference stored; re-setting it is a no-op. -/
theorem c7_preferences_persist_witness :
    (∃ ctx', storeGet (runMany [] (run [] 9 [] vegReq).2 [(10, cancelReq)])
        "s".toList = some ctx' ∧ "vegetarian".toList ∈ ctx'.preferences) ∧
    (storeGet (run [] 9 (run [] 9 [] vegReq).2 vegReq).2
        (loadSession 9 [] vegReq.session_id).1).map SessionCtx.preferences =
      (storeGet (run [] 9 [] vegReq).2
        (loadSession 9 [] vegReq.session_id).1).map SessionCtx.preferences := by
  constructor
  · obtain ⟨ctx', hget, hd⟩ := c7_preferences_persist.2.1 [] 9 [] vegReq
      "vegetarian".toList (by decide) (by decide)
    have hk : (loadSession 9 [] vegReq.session_id).1 = "s".toList := by decide
    rw [hk] at hget
    obtain ⟨ctx'', hget'', hd''⟩ := c7_preferences_persist.1 []
      (run [] 9 [] vegReq).2 [(10, cancelReq)] "s".toList ctx'
      "vegetarian".toList hget hd
    exact ⟨ctx'', hget'', hd''⟩
  · exact c7_preferences_persist.2.2 [] 9 [] vegReq (by decide)

set_option maxHeartbeats 2000000 in
/-- C8: the dialogue engine is total and always returns a reply — for
every request, catalog, store and time, `run` produces a response whose
reply text is non-empty, in every branch of the intent cascade. -/
theorem c8_always_replies :
    ∀ (menu : List MenuItem) (now : Nat) (store : SessionStore)
      (req : ChatRequest), (run menu now store req).1.reply ≠ [] := by
  intro menu now store req
  rcases hI : (parse menu req.message).intent <;>
    (simp only [run, hI]
     repeat' split
     all_goals simp only [couldNotFindReply, didNotUnderstandReply]
     all_goals exact List.cons_ne_nil _ _)

/-- C10 counterexample: a provided but empty session id is falsy in the
source, so the response carries a synthesized guest id, not the request's
session id. -/
theorem c10_counterexample :
    emptySidReq.session_id = some [] ∧
    (run [] 7 [] emptySidReq).1.session_id ≠ emptySidReq.session_id ∧
    (run [] 7 [] emptySidReq).1.session_id = some ("guest-7".toList) := by
  refine ⟨by decide, by decide, by decide⟩

set_option maxHeartbeats 2000000 in
/-- C10 (amended): every response carries a non-empty session id — the
request's own id when a non-empty one was provided, and otherwise a guest
id synthesized from the current time (an empty provided id is treated as
absent) — and the store holds a session context under that id. -/
theorem c10_session_identity (menu : List MenuItem) (now : Nat)
    (store : SessionStore) (req : ChatRequest) :
    (run menu now store req).1.session_id =
      some (sessionKey now req.session_id) ∧
    sessionKey now req.session_id ≠ [] ∧
    (∀ s, req.session_id = some s → s ≠ [] →
      sessionKey now req.session_id = s) ∧
    ((req.session_id = none ∨ req.session_id = some []) →
      sessionKey now req.session_id = guestId now) ∧
    ∃ ctx', storeGet (run menu now store req).2 (sessionKey now req.session_id) =
      some ctx' := by
  refine ⟨?_, sessionKey_ne_nil now req.session_id, ?_, ?_, ?_⟩
  · rw [run_session_id, loadSession_fst]
  · intro s hs hne
    simp only [sessionKey, hs]
    rw [if_neg (fun hc => hne (List.isEmpty_iff.mp hc))]
  · intro hcase
    rcases hcase with h | h <;> simp [sessionKey, h]
  · have h := run_store_has_key menu now store req
    rwa [loadSession_fst] at h

/-- C10 witness: a non-empty provided id is echoed and keys the stored
session. -/
theorem c10_session_identity_witness :
    (run [] 5 [] abcReq).1.session_id = some "abc".toList ∧
    ∃ ctx', storeGet (run [] 5 [] abcReq).2 "abc".toList = some ctx' := by
  have h := c10_session_identity [] 5 [] abcReq
  have hk : sessionKey 5 abcReq.session_id = "abc".toList :=
    h.2.2.1 "abc".toList (by decide) (by decide)
  refine ⟨by rw [h.1, hk], ?_⟩
  obtain ⟨ctx', hc⟩ := h.2.2.2.2
  exact ⟨ctx', by rwa [hk] at hc⟩

/-- C9 witness: the amended empty-input behavior at the Scenario 1 catalog
and an arbitrary text. -/
theorem c9_empty_inputs_witness :
    matchItems [] "anything".toList = [] ∧ matchItems friesMenu [] = [] :=
  ⟨c9_empty_inputs.1 "anything".toList,
   c9_empty_inputs.2 friesMenu (by decide)⟩
